import Mathlib

/-!
Verification of the Atomizer segmentation engine against its design
specification.

Source of the embedding:
`src/packages/anchor-engine/packages/native-atomizer/src/atomizer.cpp`
(namespace `Atomizer`, class `Atomizer`, methods `Atomize`, `SplitCode`,
`SplitProse`).

Documents are byte buffers; we model bytes as `Char` and a document as
`List Char`.  Each C++ loop advances the scan index `i` by one per
iteration (the prose splitter resynchronizes to `last_split`, which is
`i + 1` for a sentence or forced cut and `i + 2` for a paragraph cut),
so each loop is embedded structurally on the unread suffix of the
document.  The loop state `(last_split, i)` is represented by the
current run `pending = content[last_split .. i-1]`; the bracket depth is
an `Int`, exactly as the `int depth` of the source.  All index
arithmetic of the source (`substr`, the backward scan window) is
re-expressed over `pending`; the correspondence is noted at each branch.

The scans are written once, instrumented: every `emplace_back` of the
source is recorded as an event holding the emitted chunk together with
ghost data (which branch fired, the triggering document index `i`, the
`last_split` value, the depth counter).  The ghost fields never influence
the control flow; the public functions `SplitCode`, `SplitProse` and
`Atomize` return exactly the chunks, in order, by projecting the events.
-/

namespace Atomizer

/-- Bracket-depth update of the code splitter (atomizer.cpp lines 28-31):
increment on an opening brace, decrement on a closing brace only when the
counter is positive, otherwise leave it unchanged. -/
def depthUpd (depth : Int) (c : Char) : Int :=
  if c = '{' then depth + 1
  else if c = '}' then (if depth > 0 then depth - 1 else depth)
  else depth

/-- Backward newline search of the hard-limit branch (atomizer.cpp lines
50-61), expressed over the reversed current run: position `j` in
`pending.reverse` corresponds to the source index `back_scan = i-1-j`.
The source tests `content[back_scan]` only while `back_scan > last_split`
and `i - back_scan < 200`, i.e. while `j < run - 1` and `j < 199`, so the
caller passes `bound = min (run - 1) 199`; the search returns the least
such `j` holding a newline (the case `back_scan = i` is handled by the
caller). -/
def backFind : List Char → Nat → Option Nat
  | _, 0 => none
  | [], _ + 1 => none
  | c :: rest, bound + 1 =>
    if c = '\n' then some 0 else (backFind rest bound).map (· + 1)

/-- Branch of the code splitter that emitted a chunk: soft split (lines
41-45), backward scan hitting the newline at `i` itself (line 53 with
`back_scan = i`), backward scan hitting an earlier newline, forced cut
(lines 62-66), trailing remainder (lines 71-73). -/
inductive CodeTag
  | soft
  | hardNl
  | hardBack
  | hardForce
  | rem
deriving DecidableEq, Repr

/-- Record of one chunk emission of the code splitter: the branch, the
triggering document index `pos` (the document length for the remainder),
the `last_split` value `start`, the depth counter right after the update
of iteration `pos` (the final depth for the remainder), and the chunk
itself.  `tag`, `pos`, `start` and `depth` are ghost data. -/
structure CodeEv where
  tag : CodeTag
  pos : Nat
  start : Nat
  depth : Int
  chunk : List Char
deriving DecidableEq, Repr

/-- Loop of `Atomizer::SplitCode` (atomizer.cpp lines 25-68) plus the
final remainder emission (lines 71-73), instrumented.  `pending` is the
current run `content[last_split .. i-1]`, the first argument of the
recursion is the unread suffix `content[i ..]`, and `i` is the ghost scan
index.  Branches, in source order: soft split (lines 41-45: newline,
depth zero after the update, `current_len > MIN_SIZE` with
`MIN_SIZE = maxChunkSize / 2`); hard limit (lines 48-67,
`current_len >= MAX_SIZE` with `MAX_SIZE = maxChunkSize * 2`): the
backward scan first tests `back_scan = i` itself (a newline at `i` with
`i > last_split`), then scans `pending` backwards via `backFind`; a found
newline cuts inclusively after it, otherwise the forced cut emits exactly
`current_len` bytes while `last_split` becomes `i + 1` (so the byte at
`i` is dropped, as in the source). -/
def splitCodeEvGo (t : Nat) :
    List Char → List Char → Int → Nat → List CodeEv
  | [], pending, depth, i =>
    if pending = [] then []
    else [⟨.rem, i, i - pending.length, depth, pending⟩]
  | c :: rest, pending, depth, i =>
    if c = '\n' ∧ depthUpd depth c = 0 ∧ t / 2 < pending.length then
      ⟨.soft, i, i - pending.length, depthUpd depth c, pending ++ [c]⟩ ::
        splitCodeEvGo t rest [] (depthUpd depth c) (i + 1)
    else if t * 2 ≤ pending.length then
      if c = '\n' ∧ pending ≠ [] then
        ⟨.hardNl, i, i - pending.length, depthUpd depth c, pending ++ [c]⟩ ::
          splitCodeEvGo t rest [] (depthUpd depth c) (i + 1)
      else
        match backFind pending.reverse (min (pending.length - 1) 199) with
        | some j =>
          ⟨.hardBack, i, i - pending.length, depthUpd depth c,
              pending.take (pending.length - j)⟩ ::
            splitCodeEvGo t rest (pending.drop (pending.length - j) ++ [c])
              (depthUpd depth c) (i + 1)
        | none =>
          ⟨.hardForce, i, i - pending.length, depthUpd depth c, pending⟩ ::
            splitCodeEvGo t rest [] (depthUpd depth c) (i + 1)
    else
      splitCodeEvGo t rest (pending ++ [c]) (depthUpd depth c) (i + 1)

/-- Event trace of the code splitter over a whole document. -/
def splitCodeEv (content : List Char) (t : Nat) : List CodeEv :=
  splitCodeEvGo t content [] 0 0

/-- Strategy `"code"` (`Atomizer::SplitCode`): the chunks of the scan, in
emission order. -/
def SplitCode (content : List Char) (t : Nat) : List (List Char) :=
  (splitCodeEv content t).map CodeEv.chunk

/-- Sentence-terminator test of the prose splitter (atomizer.cpp line 101). -/
def isSentencePunct (c : Char) : Bool :=
  c = '.' || c = '!' || c = '?'

/-- Boundary test of the prose splitter (atomizer.cpp lines 97-103): a
newline immediately followed by another newline, or a sentence terminator
immediately followed by a space or newline.  `next` is
`content[i+1]?`, so the `i + 1 < len` guards of the source are the
`some` cases. -/
def proseBoundary (c : Char) (next : Option Char) : Bool :=
  if c = '\n' then next == some '\n'
  else if isSentencePunct c then (next == some ' ' || next == some '\n')
  else false

/-- Branch of the prose splitter that emitted a chunk: cut of
`current_len + 1` bytes (sentence boundary, or forced by the hard limit),
paragraph cut of `current_len + 2` bytes (line 108), trailing remainder
(lines 117-119). -/
inductive ProseTag
  | cut
  | para
  | rem
deriving DecidableEq, Repr

/-- Record of one chunk emission of the prose splitter: the branch, the
triggering document index `pos` (the document length for the remainder),
the `last_split` value `start`, and the chunk itself.  `tag`, `pos` and
`start` are ghost data. -/
structure ProseEv where
  tag : ProseTag
  pos : Nat
  start : Nat
  chunk : List Char
deriving DecidableEq, Repr

/-- Loop of `Atomizer::SplitProse` (atomizer.cpp lines 87-114) plus the
final remainder emission (lines 117-119), instrumented.  `pending` is the
current run `content[last_split .. i-1]` and `i` is the ghost scan index.
Branches, in source order: skip while `current_len < TARGET_SIZE`
(line 91, `TARGET_SIZE = maxChunkSize`); on a boundary or once
`current_len >= MAX_SIZE` (line 105, `MAX_SIZE = maxChunkSize * 3`) cut
`current_len + 1` bytes, one more when the trigger byte is a newline
followed by another newline (line 108); the loop then resynchronizes to
the new `last_split`, which the structural recursion realizes by
continuing after the consumed byte(s). -/
def splitProseEvGo (t : Nat) : List Char → List Char → Nat → List ProseEv
  | [], pending, i =>
    if pending = [] then [] else [⟨.rem, i, i - pending.length, pending⟩]
  | c :: rest, pending, i =>
    if pending.length < t then splitProseEvGo t rest (pending ++ [c]) (i + 1)
    else if proseBoundary c rest.head? = true ∨ t * 3 ≤ pending.length then
      match c, rest with
      | '\n', '\n' :: rest2 =>
        ⟨.para, i, i - pending.length, pending ++ ['\n', '\n']⟩ ::
          splitProseEvGo t rest2 [] (i + 2)
      | c, rest =>
        ⟨.cut, i, i - pending.length, pending ++ [c]⟩ ::
          splitProseEvGo t rest [] (i + 1)
    else
      splitProseEvGo t rest (pending ++ [c]) (i + 1)

/-- Event trace of the prose splitter over a whole document. -/
def splitProseEv (content : List Char) (t : Nat) : List ProseEv :=
  splitProseEvGo t content [] 0

/-- Strategy other than `"code"` (`Atomizer::SplitProse`): the chunks of
the scan, in emission order. -/
def SplitProse (content : List Char) (t : Nat) : List (List Char) :=
  (splitProseEv content t).map ProseEv.chunk

/-- Public entry point `Atomizer::Atomize` (atomizer.cpp lines 6-11):
the literal strategy `"code"` selects the code splitter, everything else
falls through to the prose splitter. -/
def Atomize (content : List Char) (strategy : String) (t : Nat) :
    List (List Char) :=
  if strategy = "code" then SplitCode content t else SplitProse content t

/-- Depth of the code scanner after reading the first `n` bytes: fold of
the update rule over the prefix, from the initial depth `0`. -/
def depthZ (content : List Char) (n : Nat) : Int :=
  (content.take n).foldl depthUpd 0

/-! Basic facts about the auxiliary functions. -/

/-- Backward search never reports a hit outside its window. -/
theorem backFind_lt {l : List Char} {n j : Nat} (h : backFind l n = some j) :
    j < n := by
  induction l generalizing n j with
  | nil => cases n <;> simp [backFind] at h
  | cons c rest ih =>
    cases n with
    | zero => simp [backFind] at h
    | succ n =>
      by_cases hc : c = '\n'
      · simp [backFind, hc] at h
        omega
      · simp [backFind, hc] at h
        obtain ⟨j', hj', rfl⟩ := h
        exact Nat.succ_lt_succ (ih hj')

/-- Depth before any byte is read. -/
theorem depthZ_zero (content : List Char) : depthZ content 0 = 0 := rfl

/-- Reading one more byte applies one update. -/
theorem depthZ_succ {content : List Char} {n : Nat} {c : Char}
    (h : content[n]? = some c) :
    depthZ content (n + 1) = depthUpd (depthZ content n) c := by
  unfold depthZ
  rw [List.take_succ, h]
  simp

/-- Past the end of the document the depth no longer changes. -/
theorem depthZ_succ_none {content : List Char} {n : Nat}
    (h : content[n]? = none) :
    depthZ content (n + 1) = depthZ content n := by
  unfold depthZ
  rw [List.take_succ, h]
  simp

/-- One update keeps the depth nonnegative: the decrement is guarded. -/
theorem depthUpd_nonneg {d : Int} (hd : 0 ≤ d) (c : Char) :
    0 ≤ depthUpd d c := by
  unfold depthUpd
  split_ifs <;> omega

/-- The scanner depth is nonnegative after any prefix, on any input. -/
theorem depthZ_nonneg (content : List Char) (n : Nat) :
    0 ≤ depthZ content n := by
  induction n with
  | zero => simp [depthZ_zero]
  | succ n ih =>
    cases h : content[n]? with
    | none => rw [depthZ_succ_none h]; exact ih
    | some c => rw [depthZ_succ h]; exact depthUpd_nonneg ih c

/-! Unfolding equations in closed form, used to drive the inductions. -/

/-- Unfolding of the code scan on the empty suffix. -/
theorem splitCodeEvGo_nil (t : Nat) (pending : List Char) (d : Int)
    (i : Nat) :
    splitCodeEvGo t [] pending d i =
      if pending = [] then []
      else [⟨.rem, i, i - pending.length, d, pending⟩] := by
  rw [splitCodeEvGo.eq_def]

/-- Unfolding of the code scan on one more byte. -/
theorem splitCodeEvGo_cons (t : Nat) (c : Char) (rest pending : List Char)
    (d : Int) (i : Nat) :
    splitCodeEvGo t (c :: rest) pending d i =
      if c = '\n' ∧ depthUpd d c = 0 ∧ t / 2 < pending.length then
        ⟨.soft, i, i - pending.length, depthUpd d c, pending ++ [c]⟩ ::
          splitCodeEvGo t rest [] (depthUpd d c) (i + 1)
      else if t * 2 ≤ pending.length then
        if c = '\n' ∧ pending ≠ [] then
          ⟨.hardNl, i, i - pending.length, depthUpd d c, pending ++ [c]⟩ ::
            splitCodeEvGo t rest [] (depthUpd d c) (i + 1)
        else
          match backFind pending.reverse (min (pending.length - 1) 199) with
          | some j =>
            ⟨.hardBack, i, i - pending.length, depthUpd d c,
                pending.take (pending.length - j)⟩ ::
              splitCodeEvGo t rest (pending.drop (pending.length - j) ++ [c])
                (depthUpd d c) (i + 1)
          | none =>
            ⟨.hardForce, i, i - pending.length, depthUpd d c, pending⟩ ::
              splitCodeEvGo t rest [] (depthUpd d c) (i + 1)
      else
        splitCodeEvGo t rest (pending ++ [c]) (depthUpd d c) (i + 1) := by
  rw [splitCodeEvGo.eq_def]

/-- Unfolding of the prose scan on the empty suffix. -/
theorem splitProseEvGo_nil (t : Nat) (pending : List Char) (i : Nat) :
    splitProseEvGo t [] pending i =
      if pending = [] then []
      else [⟨.rem, i, i - pending.length, pending⟩] := by
  rw [splitProseEvGo.eq_def]

/-- Unfolding of the prose scan while the run is below the target. -/
theorem splitProseEvGo_skip (t : Nat) (c : Char) (rest pending : List Char)
    (i : Nat) (h : pending.length < t) :
    splitProseEvGo t (c :: rest) pending i =
      splitProseEvGo t rest (pending ++ [c]) (i + 1) := by
  rw [splitProseEvGo.eq_def]
  simp only [if_pos h]

/-- Unfolding of the prose scan at a paragraph cut. -/
theorem splitProseEvGo_para (t : Nat) (rest2 pending : List Char) (i : Nat)
    (h1 : ¬pending.length < t)
    (h2 : proseBoundary '\n' ('\n' :: rest2).head? = true ∨
      t * 3 ≤ pending.length) :
    splitProseEvGo t ('\n' :: '\n' :: rest2) pending i =
      ⟨.para, i, i - pending.length, pending ++ ['\n', '\n']⟩ ::
        splitProseEvGo t rest2 [] (i + 2) := by
  rw [splitProseEvGo.eq_def]
  simp only [if_neg h1, if_pos h2]

/-- Unfolding of the prose scan at a non-paragraph cut. -/
theorem splitProseEvGo_cut (t : Nat) (c : Char) (rest pending : List Char)
    (i : Nat) (h1 : ¬pending.length < t)
    (h2 : proseBoundary c rest.head? = true ∨ t * 3 ≤ pending.length)
    (h3 : ¬(c = '\n' ∧ rest.head? = some '\n')) :
    splitProseEvGo t (c :: rest) pending i =
      ⟨.cut, i, i - pending.length, pending ++ [c]⟩ ::
        splitProseEvGo t rest [] (i + 1) := by
  rw [splitProseEvGo.eq_def]
  simp only [if_neg h1, if_pos h2]
  rcases rest with _ | ⟨c2, rest2⟩
  · by_cases hc : c = '\n' <;> simp [hc]
  · by_cases hc : c = '\n'
    · by_cases hc2 : c2 = '\n'
      · exact absurd ⟨hc, by simp [hc2]⟩ h3
      · simp [hc, hc2]
    · simp [hc]

/-- Unfolding of the prose scan when no cut triggers. -/
theorem splitProseEvGo_next (t : Nat) (c : Char) (rest pending : List Char)
    (i : Nat) (h1 : ¬pending.length < t)
    (h2 : ¬(proseBoundary c rest.head? = true ∨ t * 3 ≤ pending.length)) :
    splitProseEvGo t (c :: rest) pending i =
      splitProseEvGo t rest (pending ++ [c]) (i + 1) := by
  rw [splitProseEvGo.eq_def]
  simp only [if_neg h1, if_neg h2]

/-- Helper turning the pattern-mismatch hypothesis of the cut branch into
the head form used by `splitProseEvGo_cut`. -/
theorem not_para_head {c : Char} {rest : List Char}
    (hne : ∀ rest2, c = '\n' → rest = '\n' :: rest2 → False) :
    ¬(c = '\n' ∧ rest.head? = some '\n') := by
  rintro ⟨hc, hh⟩
  cases rest with
  | nil => simp at hh
  | cons c2 r2 =>
    simp at hh
    exact hne r2 hc (by rw [hh])

/-! Chunk shape lemmas, proved by induction along the scans. -/

/-- The code scan emits at least one event when it starts with unread
input or a nonempty run. -/
theorem splitCodeEvGo_ne_nil (t : Nat) :
    ∀ (l pending : List Char) (d : Int) (i : Nat),
      l ≠ [] ∨ pending ≠ [] → splitCodeEvGo t l pending d i ≠ [] := by
  intro l pending d i
  induction l, pending, d, i using splitCodeEvGo.induct t with
  | case1 d i => rintro (h | h) <;> exact absurd rfl h
  | case2 pending d i hp => intro _; simp [splitCodeEvGo_nil, hp]
  | case3 c rest pending d i h ih =>
    intro _
    rw [splitCodeEvGo_cons, if_pos h]
    simp
  | case4 c rest pending d i h1 h2 h3 ih =>
    intro _
    rw [splitCodeEvGo_cons, if_neg h1, if_pos h2, if_pos h3]
    simp
  | case5 c rest pending d i h1 h2 h3 j hj ih =>
    intro _
    rw [splitCodeEvGo_cons, if_neg h1, if_pos h2, if_neg h3, hj]
    simp
  | case6 c rest pending d i h1 h2 h3 hj ih =>
    intro _
    rw [splitCodeEvGo_cons, if_neg h1, if_pos h2, if_neg h3, hj]
    simp
  | case7 c rest pending d i h1 h2 ih =>
    intro _
    rw [splitCodeEvGo_cons, if_neg h1, if_neg h2]
    exact ih (Or.inr (by simp))

/-- The prose scan emits at least one event when it starts with unread
input or a nonempty run. -/
theorem splitProseEvGo_ne_nil (t : Nat) :
    ∀ (l pending : List Char) (i : Nat),
      l ≠ [] ∨ pending ≠ [] → splitProseEvGo t l pending i ≠ [] := by
  intro l pending i
  induction l, pending, i using splitProseEvGo.induct t with
  | case1 i => rintro (h | h) <;> exact absurd rfl h
  | case2 pending i hp => intro _; simp [splitProseEvGo_nil, hp]
  | case3 c rest pending i h ih =>
    intro _
    rw [splitProseEvGo_skip _ _ _ _ _ h]
    exact ih (Or.inr (by simp))
  | case4 pending i h1 rest2 h2 ih =>
    intro _
    rw [splitProseEvGo_para _ _ _ _ h1 h2]
    simp
  | case5 pending i h1 c rest hne h2 ih =>
    intro _
    rw [splitProseEvGo_cut _ _ _ _ _ h1 h2 (not_para_head hne)]
    simp
  | case6 c rest pending i h1 h2 ih =>
    intro _
    rw [splitProseEvGo_next _ _ _ _ _ h1 h2]
    exact ih (Or.inr (by simp))

/-- Invariant of the code scan: as long as the incoming run is at most
`MAX_SIZE = t * 2` bytes long, every emitted chunk is at most
`t * 2 + 1` bytes long (the `+ 1` is the included trigger newline). -/
theorem splitCodeEvGo_chunk_le (t : Nat) :
    ∀ (l pending : List Char) (d : Int) (i : Nat),
      pending.length ≤ t * 2 →
      ∀ ev ∈ splitCodeEvGo t l pending d i, ev.chunk.length ≤ t * 2 + 1 := by
  intro l pending d i
  induction l, pending, d, i using splitCodeEvGo.induct t with
  | case1 d i => intro h ev hev; simp [splitCodeEvGo_nil] at hev
  | case2 pending d i hp =>
    intro h ev hev
    simp [splitCodeEvGo_nil, hp] at hev
    subst hev
    exact Nat.le_succ_of_le h
  | case3 c rest pending d i hb ih =>
    intro h ev hev
    rw [splitCodeEvGo_cons, if_pos hb] at hev
    rcases List.mem_cons.mp hev with rfl | hev
    · simpa using Nat.succ_le_succ h
    · exact ih (by simp) ev hev
  | case4 c rest pending d i h1 h2 h3 ih =>
    intro h ev hev
    rw [splitCodeEvGo_cons, if_neg h1, if_pos h2, if_pos h3] at hev
    rcases List.mem_cons.mp hev with rfl | hev
    · simpa using Nat.succ_le_succ h
    · exact ih (by simp) ev hev
  | case5 c rest pending d i h1 h2 h3 j hj ih =>
    intro h ev hev
    rw [splitCodeEvGo_cons, if_neg h1, if_pos h2, if_neg h3, hj] at hev
    have hjlt := backFind_lt hj
    rcases List.mem_cons.mp hev with rfl | hev
    · simp only [List.length_take]
      omega
    · refine ih ?_ ev hev
      simp only [List.length_append, List.length_drop, List.length_cons,
        List.length_nil]
      omega
  | case6 c rest pending d i h1 h2 h3 hj ih =>
    intro h ev hev
    rw [splitCodeEvGo_cons, if_neg h1, if_pos h2, if_neg h3, hj] at hev
    rcases List.mem_cons.mp hev with rfl | hev
    · exact Nat.le_succ_of_le h
    · exact ih (by simp) ev hev
  | case7 c rest pending d i h1 h2 ih =>
    intro h ev hev
    rw [splitCodeEvGo_cons, if_neg h1, if_neg h2] at hev
    refine ih ?_ ev hev
    simp only [List.length_append, List.length_cons, List.length_nil]
    omega

/-- Invariant of the prose scan: as long as the incoming run is at most
`MAX_SIZE = t * 3` bytes long, every emitted chunk is at most
`t * 3 + 2` bytes long (trigger byte plus the consumed second newline of
a paragraph boundary). -/
theorem splitProseEvGo_chunk_le (t : Nat) :
    ∀ (l pending : List Char) (i : Nat),
      pending.length ≤ t * 3 →
      ∀ ev ∈ splitProseEvGo t l pending i, ev.chunk.length ≤ t * 3 + 2 := by
  intro l pending i
  induction l, pending, i using splitProseEvGo.induct t with
  | case1 i => intro h ev hev; simp [splitProseEvGo_nil] at hev
  | case2 pending i hp =>
    intro h ev hev
    simp [splitProseEvGo_nil, hp] at hev
    subst hev
    exact le_trans h (Nat.le_add_right _ 2)
  | case3 c rest pending i hb ih =>
    intro h ev hev
    rw [splitProseEvGo_skip _ _ _ _ _ hb] at hev
    refine ih ?_ ev hev
    simp only [List.length_append, List.length_cons, List.length_nil]
    omega
  | case4 pending i h1 rest2 h2 ih =>
    intro h ev hev
    rw [splitProseEvGo_para _ _ _ _ h1 h2] at hev
    rcases List.mem_cons.mp hev with rfl | hev
    · simp only [List.length_append, List.length_cons, List.length_nil]
      omega
    · exact ih (by simp) ev hev
  | case5 pending i h1 c rest hne h2 ih =>
    intro h ev hev
    rw [splitProseEvGo_cut _ _ _ _ _ h1 h2 (not_para_head hne)] at hev
    rcases List.mem_cons.mp hev with rfl | hev
    · simp only [List.length_append, List.length_cons, List.length_nil]
      omega
    · exact ih (by simp) ev hev
  | case6 c rest pending i h1 h2 ih =>
    intro h ev hev
    rw [splitProseEvGo_next _ _ _ _ _ h1 h2] at hev
    refine ih ?_ ev hev
    simp only [List.length_append, List.length_cons, List.length_nil]
    omega

/-- With a positive target size, every chunk the code scan emits is
nonempty: the forced cut emits `current_len >= t * 2 >= 2` bytes, every
other branch includes at least its trigger byte or is guarded. -/
theorem splitCodeEvGo_chunk_ne_nil (t : Nat) (ht : 1 ≤ t) :
    ∀ (l pending : List Char) (d : Int) (i : Nat),
      ∀ ev ∈ splitCodeEvGo t l pending d i, ev.chunk ≠ [] := by
  intro l pending d i
  induction l, pending, d, i using splitCodeEvGo.induct t with
  | case1 d i => intro ev hev; simp [splitCodeEvGo_nil] at hev
  | case2 pending d i hp =>
    intro ev hev
    simp [splitCodeEvGo_nil, hp] at hev
    subst hev
    exact hp
  | case3 c rest pending d i hb ih =>
    intro ev hev
    rw [splitCodeEvGo_cons, if_pos hb] at hev
    rcases List.mem_cons.mp hev with rfl | hev
    · simp
    · exact ih ev hev
  | case4 c rest pending d i h1 h2 h3 ih =>
    intro ev hev
    rw [splitCodeEvGo_cons, if_neg h1, if_pos h2, if_pos h3] at hev
    rcases List.mem_cons.mp hev with rfl | hev
    · simp
    · exact ih ev hev
  | case5 c rest pending d i h1 h2 h3 j hj ih =>
    intro ev hev
    rw [splitCodeEvGo_cons, if_neg h1, if_pos h2, if_neg h3, hj] at hev
    have hjlt := backFind_lt hj
    rcases List.mem_cons.mp hev with rfl | hev
    · simp only [ne_eq, ← List.length_pos_iff_ne_nil, List.length_take]
      omega
    · exact ih ev hev
  | case6 c rest pending d i h1 h2 h3 hj ih =>
    intro ev hev
    rw [splitCodeEvGo_cons, if_neg h1, if_pos h2, if_neg h3, hj] at hev
    rcases List.mem_cons.mp hev with rfl | hev
    · simp only [ne_eq, ← List.length_pos_iff_ne_nil]
      omega
    · exact ih ev hev
  | case7 c rest pending d i h1 h2 ih =>
    intro ev hev
    rw [splitCodeEvGo_cons, if_neg h1, if_neg h2] at hev
    exact ih ev hev

/-- Every chunk the prose scan emits is nonempty: every cut includes at
least its trigger byte and the remainder is guarded. -/
theorem splitProseEvGo_chunk_ne_nil (t : Nat) :
    ∀ (l pending : List Char) (i : Nat),
      ∀ ev ∈ splitProseEvGo t l pending i, ev.chunk ≠ [] := by
  intro l pending i
  induction l, pending, i using splitProseEvGo.induct t with
  | case1 i => intro ev hev; simp [splitProseEvGo_nil] at hev
  | case2 pending i hp =>
    intro ev hev
    simp [splitProseEvGo_nil, hp] at hev
    subst hev
    exact hp
  | case3 c rest pending i hb ih =>
    intro ev hev
    rw [splitProseEvGo_skip _ _ _ _ _ hb] at hev
    exact ih ev hev
  | case4 pending i h1 rest2 h2 ih =>
    intro ev hev
    rw [splitProseEvGo_para _ _ _ _ h1 h2] at hev
    rcases List.mem_cons.mp hev with rfl | hev
    · simp
    · exact ih ev hev
  | case5 pending i h1 c rest hne h2 ih =>
    intro ev hev
    rw [splitProseEvGo_cut _ _ _ _ _ h1 h2 (not_para_head hne)] at hev
    rcases List.mem_cons.mp hev with rfl | hev
    · simp
    · exact ih ev hev
  | case6 c rest pending i h1 h2 ih =>
    intro ev hev
    rw [splitProseEvGo_next _ _ _ _ _ h1 h2] at hev
    exact ih ev hev

/-! Position bookkeeping: relating the ghost state of the scans to
slices of the document. -/

/-- One more byte extends a document slice. -/
theorem slice_snoc {content : List Char} {s k i : Nat} {c : Char}
    (hs : s + k = i) (hc : content[i]? = some c) :
    (content.drop s).take (k + 1) = (content.drop s).take k ++ [c] := by
  rw [List.take_succ, List.getElem?_drop, hs, hc]
  rfl

/-- Structure of a document at a scan position whose unread suffix is
`c :: rest`. -/
theorem drop_eq_cons_facts {content rest : List Char} {c : Char} {i : Nat}
    (h : content.drop i = c :: rest) :
    content[i]? = some c ∧ content.drop (i + 1) = rest ∧
      i < content.length := by
  refine ⟨?_, ?_, ?_⟩
  · have h0 := congrArg (fun l => l[0]?) h
    simpa [List.getElem?_drop] using h0
  · have ht := congrArg List.tail h
    simpa [List.tail_drop] using ht
  · by_contra hlt
    push_neg at hlt
    rw [List.drop_eq_nil_of_le hlt] at h
    exact List.noConfusion h

/-- A scan position with empty unread suffix is past the document. -/
theorem drop_eq_nil_facts {content : List Char} {i : Nat}
    (h : content.drop i = []) : content.length ≤ i := by
  have hlen := congrArg List.length h
  simp only [List.length_drop, List.length_nil] at hlen
  omega

/-- Every event of the code scan triggers at or after the current scan
position. -/
theorem splitCodeEvGo_le_pos (t : Nat) :
    ∀ (l pending : List Char) (d : Int) (i : Nat),
      ∀ ev ∈ splitCodeEvGo t l pending d i, i ≤ ev.pos := by
  intro l pending d i
  induction l, pending, d, i using splitCodeEvGo.induct t with
  | case1 d i => intro ev hev; simp [splitCodeEvGo_nil] at hev
  | case2 pending d i hp =>
    intro ev hev
    simp [splitCodeEvGo_nil, hp] at hev
    subst hev
    exact le_refl i
  | case3 c rest pending d i h ih =>
    intro ev hev
    rw [splitCodeEvGo_cons, if_pos h] at hev
    rcases List.mem_cons.mp hev with rfl | hev
    · exact le_refl i
    · exact le_trans (Nat.le_succ i) (ih ev hev)
  | case4 c rest pending d i h1 h2 h3 ih =>
    intro ev hev
    rw [splitCodeEvGo_cons, if_neg h1, if_pos h2, if_pos h3] at hev
    rcases List.mem_cons.mp hev with rfl | hev
    · exact le_refl i
    · exact le_trans (Nat.le_succ i) (ih ev hev)
  | case5 c rest pending d i h1 h2 h3 j hj ih =>
    intro ev hev
    rw [splitCodeEvGo_cons, if_neg h1, if_pos h2, if_neg h3, hj] at hev
    rcases List.mem_cons.mp hev with rfl | hev
    · exact le_refl i
    · exact le_trans (Nat.le_succ i) (ih ev hev)
  | case6 c rest pending d i h1 h2 h3 hj ih =>
    intro ev hev
    rw [splitCodeEvGo_cons, if_neg h1, if_pos h2, if_neg h3, hj] at hev
    rcases List.mem_cons.mp hev with rfl | hev
    · exact le_refl i
    · exact le_trans (Nat.le_succ i) (ih ev hev)
  | case7 c rest pending d i h1 h2 ih =>
    intro ev hev
    rw [splitCodeEvGo_cons, if_neg h1, if_neg h2] at hev
    exact le_trans (Nat.le_succ i) (ih ev hev)

/-- Event positions of the code scan are strictly increasing: at most
one emission happens per loop iteration (in particular a soft split
short-circuits the hard-limit check of the same iteration). -/
theorem splitCodeEvGo_pos_pairwise (t : Nat) :
    ∀ (l pending : List Char) (d : Int) (i : Nat),
      (splitCodeEvGo t l pending d i).Pairwise
        fun a b => a.pos < b.pos := by
  intro l pending d i
  induction l, pending, d, i using splitCodeEvGo.induct t with
  | case1 d i => simp [splitCodeEvGo_nil]
  | case2 pending d i hp => simp [splitCodeEvGo_nil, hp]
  | case3 c rest pending d i h ih =>
    rw [splitCodeEvGo_cons, if_pos h]
    exact List.pairwise_cons.mpr
      ⟨fun b hb => lt_of_lt_of_le (Nat.lt_succ_self i)
        (splitCodeEvGo_le_pos t _ _ _ _ b hb), ih⟩
  | case4 c rest pending d i h1 h2 h3 ih =>
    rw [splitCodeEvGo_cons, if_neg h1, if_pos h2, if_pos h3]
    exact List.pairwise_cons.mpr
      ⟨fun b hb => lt_of_lt_of_le (Nat.lt_succ_self i)
        (splitCodeEvGo_le_pos t _ _ _ _ b hb), ih⟩
  | case5 c rest pending d i h1 h2 h3 j hj ih =>
    rw [splitCodeEvGo_cons, if_neg h1, if_pos h2, if_neg h3, hj]
    exact List.pairwise_cons.mpr
      ⟨fun b hb => lt_of_lt_of_le (Nat.lt_succ_self i)
        (splitCodeEvGo_le_pos t _ _ _ _ b hb), ih⟩
  | case6 c rest pending d i h1 h2 h3 hj ih =>
    rw [splitCodeEvGo_cons, if_neg h1, if_pos h2, if_neg h3, hj]
    exact List.pairwise_cons.mpr
      ⟨fun b hb => lt_of_lt_of_le (Nat.lt_succ_self i)
        (splitCodeEvGo_le_pos t _ _ _ _ b hb), ih⟩
  | case7 c rest pending d i h1 h2 ih =>
    rw [splitCodeEvGo_cons, if_neg h1, if_neg h2]
    exact ih

/-- In a list whose positions strictly increase, an event is determined
by its position. -/
theorem pairwise_pos_inj {l : List CodeEv}
    (hp : l.Pairwise fun a b => a.pos < b.pos) :
    ∀ a ∈ l, ∀ b ∈ l, a.pos = b.pos → a = b := by
  induction l with
  | nil => simp
  | cons x xs ih =>
    obtain ⟨hx, hxs⟩ := List.pairwise_cons.mp hp
    intro a ha b hb heq
    rcases List.mem_cons.mp ha with ha1 | ha1
    · rcases List.mem_cons.mp hb with hb1 | hb1
      · rw [ha1, hb1]
      · exfalso
        have := hx b hb1
        rw [ha1] at heq
        omega
    · rcases List.mem_cons.mp hb with hb1 | hb1
      · exfalso
        have := hx a ha1
        rw [hb1] at heq
        omega
      · exact ih hxs a ha1 b hb1 heq

/-- Dropping from a document slice is a deeper, shorter slice. -/
theorem slice_drop (content : List Char) (s k m : Nat) :
    ((content.drop s).take k).drop m = (content.drop (s + m)).take (k - m) := by
  rw [List.drop_take, List.drop_drop]

/-- Master invariant of the code scan.  With the state tied to the
document -- `l` the unread suffix at ghost index `i`, `pending` the run
slice since the last split, `d` the depth fold of the prefix -- every
emitted event satisfies: a soft event fires at a newline with the depth
fold zero after it and a run above `MIN_SIZE = t / 2`, and its chunk is
the slice from its start up to and including the newline; every
non-remainder event records the depth fold right after its trigger byte;
the remainder event sits at the document end with the final depth
fold. -/
theorem splitCodeEvGo_spec (content : List Char) (t : Nat) :
    ∀ (l pending : List Char) (d : Int) (i : Nat),
      l = content.drop i →
      pending = (content.drop (i - pending.length)).take pending.length →
      pending.length ≤ i → i ≤ content.length →
      d = depthZ content i →
      ∀ ev ∈ splitCodeEvGo t l pending d i,
        (ev.tag = CodeTag.soft →
          content[ev.pos]? = some '\n' ∧
          depthZ content (ev.pos + 1) = 0 ∧
          t / 2 < ev.pos - ev.start ∧
          ev.chunk = (content.drop ev.start).take (ev.pos - ev.start + 1) ∧
          ev.chunk.getLast? = some '\n') ∧
        (ev.tag ≠ CodeTag.rem → ev.depth = depthZ content (ev.pos + 1)) ∧
        (ev.tag = CodeTag.rem →
          ev.pos = content.length ∧ ev.depth = depthZ content ev.pos) := by
  intro l pending d i
  induction l, pending, d, i using splitCodeEvGo.induct t with
  | case1 d i =>
    intro hl hp hle hile hd ev hev
    simp [splitCodeEvGo_nil] at hev
  | case2 pending d i hp0 =>
    intro hl hp hle hile hd ev hev
    simp [splitCodeEvGo_nil, hp0] at hev
    subst hev
    have hilen : i = content.length := by
      have := drop_eq_nil_facts hl.symm
      omega
    exact ⟨fun htag => by simp at htag, fun hne => absurd rfl hne,
      fun _ => ⟨hilen, hd⟩⟩
  | case3 c rest pending d i h ih =>
    intro hl hp hle hile hd ev hev
    obtain ⟨hc_at, hrest, hlt⟩ := drop_eq_cons_facts hl.symm
    have hdz : depthUpd d c = depthZ content (i + 1) := by
      rw [hd]
      exact (depthZ_succ hc_at).symm
    rw [splitCodeEvGo_cons, if_pos h] at hev
    obtain ⟨hc, hd0, hrun⟩ := h
    rcases List.mem_cons.mp hev with rfl | hev
    · subst hc
      have hstart : i - (i - pending.length) = pending.length := by omega
      refine ⟨fun _ => ⟨hc_at, ?_, ?_, ?_, ?_⟩, fun _ => hdz,
        fun htag => by simp at htag⟩
      · rw [← hdz]
        exact hd0
      · simpa [hstart] using hrun
      · show pending ++ ['\n'] =
          (content.drop (i - pending.length)).take
            (i - (i - pending.length) + 1)
        rw [hstart, slice_snoc (by omega) hc_at, ← hp]
      · exact List.getLast?_concat _
    · exact ih hrest.symm (by simp) (by simp) hlt hdz ev hev
  | case4 c rest pending d i h1 h2 h3 ih =>
    intro hl hp hle hile hd ev hev
    obtain ⟨hc_at, hrest, hlt⟩ := drop_eq_cons_facts hl.symm
    have hdz : depthUpd d c = depthZ content (i + 1) := by
      rw [hd]
      exact (depthZ_succ hc_at).symm
    rw [splitCodeEvGo_cons, if_neg h1, if_pos h2, if_pos h3] at hev
    rcases List.mem_cons.mp hev with rfl | hev
    · exact ⟨fun htag => by simp at htag, fun _ => hdz,
        fun htag => by simp at htag⟩
    · exact ih hrest.symm (by simp) (by simp) hlt hdz ev hev
  | case5 c rest pending d i h1 h2 h3 j hj ih =>
    intro hl hp hle hile hd ev hev
    obtain ⟨hc_at, hrest, hlt⟩ := drop_eq_cons_facts hl.symm
    have hdz : depthUpd d c = depthZ content (i + 1) := by
      rw [hd]
      exact (depthZ_succ hc_at).symm
    rw [splitCodeEvGo_cons, if_neg h1, if_pos h2, if_neg h3, hj] at hev
    have hjm := lt_min_iff.mp (backFind_lt hj)
    rcases List.mem_cons.mp hev with rfl | hev
    · exact ⟨fun htag => by simp at htag, fun _ => hdz,
        fun htag => by simp at htag⟩
    · refine ih hrest.symm ?_ ?_ hlt hdz ev hev
      · show pending.drop (pending.length - j) ++ [c] =
          (content.drop
            (i + 1 - (pending.drop (pending.length - j) ++ [c]).length)).take
            ((pending.drop (pending.length - j) ++ [c]).length)
        have hplen : (pending.drop (pending.length - j) ++ [c]).length =
            j + 1 := by
          simp only [List.length_append, List.length_drop,
            List.length_cons, List.length_nil]
          omega
        rw [hplen]
        have e3 : i + 1 - (j + 1) = i - j := by omega
        rw [e3, slice_snoc (show i - j + j = i by omega) hc_at]
        have hsub : pending.drop (pending.length - j) =
            (content.drop (i - j)).take j := by
          have e4 : i - pending.length + (pending.length - j) = i - j := by
            omega
          have e5 : pending.length - (pending.length - j) = j := by omega
          calc pending.drop (pending.length - j)
              = ((content.drop (i - pending.length)).take
                  pending.length).drop (pending.length - j) := by
                rw [← hp]
            _ = (content.drop
                  (i - pending.length + (pending.length - j))).take
                  (pending.length - (pending.length - j)) :=
                slice_drop content _ _ _
            _ = (content.drop (i - j)).take j := by rw [e4, e5]
        rw [hsub]
      · simp only [List.length_append, List.length_drop, List.length_cons,
          List.length_nil]
        omega
  | case6 c rest pending d i h1 h2 h3 hj ih =>
    intro hl hp hle hile hd ev hev
    obtain ⟨hc_at, hrest, hlt⟩ := drop_eq_cons_facts hl.symm
    have hdz : depthUpd d c = depthZ content (i + 1) := by
      rw [hd]
      exact (depthZ_succ hc_at).symm
    rw [splitCodeEvGo_cons, if_neg h1, if_pos h2, if_neg h3, hj] at hev
    rcases List.mem_cons.mp hev with rfl | hev
    · exact ⟨fun htag => by simp at htag, fun _ => hdz,
        fun htag => by simp at htag⟩
    · exact ih hrest.symm (by simp) (by simp) hlt hdz ev hev
  | case7 c rest pending d i h1 h2 ih =>
    intro hl hp hle hile hd ev hev
    obtain ⟨hc_at, hrest, hlt⟩ := drop_eq_cons_facts hl.symm
    have hdz : depthUpd d c = depthZ content (i + 1) := by
      rw [hd]
      exact (depthZ_succ hc_at).symm
    rw [splitCodeEvGo_cons, if_neg h1, if_neg h2] at hev
    refine ih hrest.symm ?_ ?_ hlt hdz ev hev
    · show pending ++ [c] =
        (content.drop (i + 1 - (pending ++ [c]).length)).take
          ((pending ++ [c]).length)
      have hplen : (pending ++ [c]).length = pending.length + 1 := by simp
      rw [hplen]
      have e3 : i + 1 - (pending.length + 1) = i - pending.length := by omega
      rw [e3, slice_snoc (by omega) hc_at, ← hp]
    · simp only [List.length_append, List.length_cons, List.length_nil]
      omega

/-- Master invariant of the prose scan.  With the state tied to the
document, every emitted event satisfies: a cut event's chunk is the
slice up to and including its trigger byte, and when not forced by the
hard limit (`run < MAX_SIZE = t * 3`) its trigger is a sentence
terminator followed by a space or newline; a paragraph event sits at a
newline followed by a newline and its chunk is the slice including both;
the remainder event sits at the document end. -/
theorem splitProseEvGo_spec (content : List Char) (t : Nat) :
    ∀ (l pending : List Char) (i : Nat),
      l = content.drop i →
      pending = (content.drop (i - pending.length)).take pending.length →
      pending.length ≤ i → i ≤ content.length →
      ∀ ev ∈ splitProseEvGo t l pending i,
        (ev.tag = ProseTag.cut →
          ev.chunk = (content.drop ev.start).take (ev.pos - ev.start + 1) ∧
          (ev.pos - ev.start < t * 3 →
            (∃ c, content[ev.pos]? = some c ∧ isSentencePunct c = true) ∧
            (content[ev.pos + 1]? = some ' ' ∨
              content[ev.pos + 1]? = some '\n'))) ∧
        (ev.tag = ProseTag.para →
          content[ev.pos]? = some '\n' ∧
          content[ev.pos + 1]? = some '\n' ∧
          ev.chunk =
            (content.drop ev.start).take (ev.pos - ev.start + 2)) ∧
        (ev.tag = ProseTag.rem → ev.pos = content.length) := by
  intro l pending i
  induction l, pending, i using splitProseEvGo.induct t with
  | case1 i =>
    intro hl hp hle hile ev hev
    simp [splitProseEvGo_nil] at hev
  | case2 pending i hp0 =>
    intro hl hp hle hile ev hev
    simp [splitProseEvGo_nil, hp0] at hev
    subst hev
    have hilen : i = content.length := by
      have := drop_eq_nil_facts hl.symm
      omega
    exact ⟨fun htag => by simp at htag, fun htag => by simp at htag,
      fun _ => hilen⟩
  | case3 c rest pending i hb ih =>
    intro hl hp hle hile ev hev
    obtain ⟨hc_at, hrest, hlt⟩ := drop_eq_cons_facts hl.symm
    rw [splitProseEvGo_skip _ _ _ _ _ hb] at hev
    refine ih hrest.symm ?_ ?_ hlt ev hev
    · show pending ++ [c] =
        (content.drop (i + 1 - (pending ++ [c]).length)).take
          ((pending ++ [c]).length)
      have hplen : (pending ++ [c]).length = pending.length + 1 := by simp
      rw [hplen]
      have e3 : i + 1 - (pending.length + 1) = i - pending.length := by omega
      rw [e3, slice_snoc (by omega) hc_at, ← hp]
    · simp only [List.length_append, List.length_cons, List.length_nil]
      omega
  | case4 pending i h1 rest2 h2 ih =>
    intro hl hp hle hile ev hev
    obtain ⟨hc_at, hrest, hlt⟩ := drop_eq_cons_facts hl.symm
    obtain ⟨hc2_at, hrest2, hlt2⟩ := drop_eq_cons_facts hrest
    rw [splitProseEvGo_para _ _ _ _ h1 h2] at hev
    rcases List.mem_cons.mp hev with rfl | hev
    · have hstart : i - (i - pending.length) = pending.length := by omega
      refine ⟨fun htag => by simp at htag, fun _ => ⟨hc_at, hc2_at, ?_⟩,
        fun htag => by simp at htag⟩
      show pending ++ ['\n', '\n'] =
        (content.drop (i - pending.length)).take
          (i - (i - pending.length) + 2)
      rw [hstart,
        show pending.length + 2 = pending.length + 1 + 1 from rfl,
        slice_snoc (show i - pending.length + (pending.length + 1) = i + 1
          by omega) hc2_at,
        slice_snoc (show i - pending.length + pending.length = i by omega)
          hc_at, ← hp]
      simp
    · exact ih hrest2.symm (by simp) (by simp) hlt2 ev hev
  | case5 pending i h1 c rest hne h2 ih =>
    intro hl hp hle hile ev hev
    obtain ⟨hc_at, hrest, hlt⟩ := drop_eq_cons_facts hl.symm
    have hpara := not_para_head hne
    rw [splitProseEvGo_cut _ _ _ _ _ h1 h2 hpara] at hev
    rcases List.mem_cons.mp hev with rfl | hev
    · have hstart : i - (i - pending.length) = pending.length := by omega
      refine ⟨fun _ => ⟨?_, ?_⟩, fun htag => by simp at htag,
        fun htag => by simp at htag⟩
      · show pending ++ [c] =
          (content.drop (i - pending.length)).take
            (i - (i - pending.length) + 1)
        rw [hstart, slice_snoc (by omega) hc_at, ← hp]
      · intro hrun
        have hrun2 : pending.length < t * 3 := by
          simpa [hstart] using hrun
        have hbd : proseBoundary c rest.head? = true := by
          rcases h2 with hbd | hforced
          · exact hbd
          · omega
        have hnext : rest.head? = content[i + 1]? := by
          rw [← hrest, List.head?_drop]
        by_cases hc : c = '\n'
        · exfalso
          apply hpara
          refine ⟨hc, ?_⟩
          subst hc
          simp only [proseBoundary, if_pos rfl] at hbd
          exact eq_of_beq hbd
        · simp only [proseBoundary, if_neg hc] at hbd
          by_cases hsp : isSentencePunct c = true
          · rw [if_pos hsp] at hbd
            rcases Bool.or_eq_true_iff.mp hbd with hsp2 | hsp2
            · exact ⟨⟨c, hc_at, hsp⟩,
                Or.inl (by rw [← hnext]; exact eq_of_beq hsp2)⟩
            · exact ⟨⟨c, hc_at, hsp⟩,
                Or.inr (by rw [← hnext]; exact eq_of_beq hsp2)⟩
          · rw [if_neg hsp] at hbd
            exact absurd hbd (by simp)
    · exact ih hrest.symm (by simp) (by simp) hlt ev hev
  | case6 c rest pending i h1 h2 ih =>
    intro hl hp hle hile ev hev
    obtain ⟨hc_at, hrest, hlt⟩ := drop_eq_cons_facts hl.symm
    rw [splitProseEvGo_next _ _ _ _ _ h1 h2] at hev
    refine ih hrest.symm ?_ ?_ hlt ev hev
    · show pending ++ [c] =
        (content.drop (i + 1 - (pending ++ [c]).length)).take
          ((pending ++ [c]).length)
      have hplen : (pending ++ [c]).length = pending.length + 1 := by simp
      rw [hplen]
      have e3 : i + 1 - (pending.length + 1) = i - pending.length := by omega
      rw [e3, slice_snoc (by omega) hc_at, ← hp]
    · simp only [List.length_append, List.length_cons, List.length_nil]
      omega

/-- Consecutive prose events partition the document: each event starts
where the previous event's chunk ended, and the first event starts at
the current run start. -/
theorem splitProseEvGo_chain (t : Nat) :
    ∀ (l pending : List Char) (i : Nat), pending.length ≤ i →
      ((splitProseEvGo t l pending i).Chain'
        fun a b => b.start = a.start + a.chunk.length) ∧
      (∀ ev, (splitProseEvGo t l pending i).head? = some ev →
        ev.start = i - pending.length) := by
  intro l pending i
  induction l, pending, i using splitProseEvGo.induct t with
  | case1 i => intro _; simp [splitProseEvGo_nil]
  | case2 pending i hp0 =>
    intro _
    refine ⟨by simp [splitProseEvGo_nil, hp0], fun ev hev => ?_⟩
    simp [splitProseEvGo_nil, hp0] at hev
    subst hev
    rfl
  | case3 c rest pending i hb ih =>
    intro hle
    rw [splitProseEvGo_skip _ _ _ _ _ hb]
    have ihh := ih (by simp only [List.length_append, List.length_cons,
      List.length_nil]; omega)
    refine ⟨ihh.1, fun ev hev => ?_⟩
    have := ihh.2 ev hev
    simp only [List.length_append, List.length_cons, List.length_nil] at this
    omega
  | case4 pending i h1 rest2 h2 ih =>
    intro hle
    rw [splitProseEvGo_para _ _ _ _ h1 h2]
    have ihh := ih (by simp)
    refine ⟨List.chain'_cons'.mpr ⟨fun y hy => ?_, ihh.1⟩,
      fun ev hev => ?_⟩
    · have hys := ihh.2 y (Option.mem_def.mp hy)
      simp only [List.length_append, List.length_cons, List.length_nil]
        at hys ⊢
      omega
    · simp only [List.head?_cons, Option.some_inj] at hev
      subst hev
      rfl
  | case5 pending i h1 c rest hne h2 ih =>
    intro hle
    rw [splitProseEvGo_cut _ _ _ _ _ h1 h2 (not_para_head hne)]
    have ihh := ih (by simp)
    refine ⟨List.chain'_cons'.mpr ⟨fun y hy => ?_, ihh.1⟩,
      fun ev hev => ?_⟩
    · have hys := ihh.2 y (Option.mem_def.mp hy)
      simp only [List.length_append, List.length_cons, List.length_nil]
        at hys ⊢
      omega
    · simp only [List.head?_cons, Option.some_inj] at hev
      subst hev
      rfl
  | case6 c rest pending i h1 h2 ih =>
    intro hle
    rw [splitProseEvGo_next _ _ _ _ _ h1 h2]
    have ihh := ih (by simp only [List.length_append, List.length_cons,
      List.length_nil]; omega)
    refine ⟨ihh.1, fun ev hev => ?_⟩
    have := ihh.2 ev hev
    simp only [List.length_append, List.length_cons, List.length_nil] at this
    omega

/-- Stepping lemma for the two-paragraph scenario: while the scan walks
through a first paragraph that contains no newline, no sentence
terminator followed by a space, no terminator in last position, and
whose length stays below the hard limit, no cut fires, so the scan state
reaches the paragraph separator with the whole first paragraph as its
run. -/
theorem prose_scenario_steps (t : Nat) (P1 P2 : List Char)
    (hnl : '\n' ∉ P1)
    (hmid : ∀ j c c2, P1[j]? = some c → P1[j + 1]? = some c2 →
      isSentencePunct c = true → c2 ≠ ' ')
    (hlast : ∀ c, P1.getLast? = some c → isSentencePunct c = false)
    (ht3 : P1.length ≤ t * 3) :
    ∀ (p1rest pend : List Char) (i : Nat), pend ++ p1rest = P1 →
      splitProseEvGo t (p1rest ++ '\n' :: '\n' :: P2) pend i =
        splitProseEvGo t ('\n' :: '\n' :: P2) P1 (i + p1rest.length) := by
  intro p1rest
  induction p1rest with
  | nil =>
    intro pend i hP
    simp only [List.nil_append, List.length_nil, Nat.add_zero]
    rw [show pend = P1 from by simpa using hP]
  | cons c p1rest' ih =>
    intro pend i hP
    have hclen : P1.length = pend.length + (p1rest'.length + 1) := by
      rw [← hP]
      simp only [List.length_append, List.length_cons]
    have hstep :
        splitProseEvGo t ((c :: p1rest') ++ '\n' :: '\n' :: P2) pend i =
          splitProseEvGo t (p1rest' ++ '\n' :: '\n' :: P2)
            (pend ++ [c]) (i + 1) := by
      by_cases hlt : pend.length < t
      · rw [List.cons_append, splitProseEvGo_skip _ _ _ _ _ hlt]
      · have hnotforced : ¬ t * 3 ≤ pend.length := by omega
        have hcP1 : P1[pend.length]? = some c := by
          rw [← hP, List.getElem?_append_right (le_refl pend.length)]
          simp
        have hcmem : c ∈ P1 := by
          rw [← hP]
          simp
        have hcnl : c ≠ '\n' := fun hc => hnl (hc ▸ hcmem)
        have hbd : proseBoundary c
            ((p1rest' ++ '\n' :: '\n' :: P2).head?) = false := by
          rw [proseBoundary, if_neg hcnl]
          by_cases hsp : isSentencePunct c = true
          · rw [if_pos hsp]
            cases p1rest' with
            | nil =>
              have hlc : P1.getLast? = some c := by
                rw [← hP]
                exact List.getLast?_concat _
              exact absurd hsp (by simp [hlast c hlc])
            | cons c2 r2 =>
              have hc2mem : c2 ∈ P1 := by
                rw [← hP]
                simp
              have hc2P1 : P1[pend.length + 1]? = some c2 := by
                rw [← hP, List.getElem?_append_right (by omega)]
                simp
              have hc2sp : c2 ≠ ' ' := hmid pend.length c c2 hcP1 hc2P1 hsp
              have hc2nl : c2 ≠ '\n' := fun h => hnl (h ▸ hc2mem)
              simp [hc2sp, hc2nl]
          · rw [if_neg hsp]
        have hcond : ¬(proseBoundary c
            ((p1rest' ++ '\n' :: '\n' :: P2).head?) = true ∨
            t * 3 ≤ pend.length) := by
          rw [hbd]
          simp only [Bool.false_eq_true, false_or]
          exact hnotforced
        rw [List.cons_append, splitProseEvGo_next _ _ _ _ _ hlt hcond]
    rw [hstep, ih (pend ++ [c]) (i + 1) (by simpa using hP),
      show i + 1 + p1rest'.length = i + (c :: p1rest').length from by
        simp only [List.length_cons]
        omega]

/-! Claim theorems. -/

/-- C1: the coverage claim fails on the code.  Under the `"code"`
strategy with `targetSize = 1` the input `"xxxx"` is split by a forced
hard cut that emits `current_len` bytes but advances `last_split` to
`i + 1`, dropping the byte at the scan position: the chunks are `"xx"`
and `"x"` and their concatenation is `"xxx"`, not the input. -/
theorem C1_code_strategy_drops_a_byte :
    Atomize ['x', 'x', 'x', 'x'] "code" 1 = [['x', 'x'], ['x']] ∧
    (Atomize ['x', 'x', 'x', 'x'] "code" 1).flatten = ['x', 'x', 'x'] := by
  decide

/-- C2, counterexample: under the `"code"` strategy with `targetSize = 1`
the input `"ab\n"` yields the single chunk `"ab\n"` of length `3`,
exceeding the claimed hard ceiling `targetSize * 2 = 2` (a soft split at
`run = MAX` emits `run + 1` bytes). -/
theorem C2_counterexample_hard_ceiling :
    ¬ ∀ chunk ∈ Atomize ['a', 'b', '\n'] "code" 1, chunk.length ≤ 1 * 2 := by
  decide

/-- C2 (amended): for every input document and every target size, every
chunk returned by `Atomize` has length at most `targetSize * 2 + 1` under
the `"code"` strategy and at most `targetSize * 3 + 2` under any other
strategy (the trigger byte is included beyond the ceiling, plus the
second newline of a paragraph boundary for prose). -/
theorem C2_chunk_size_bounds (content : List Char) (s : String) (t : Nat)
    (chunk : List Char) (hc : chunk ∈ Atomize content s t) :
    chunk.length ≤ if s = "code" then t * 2 + 1 else t * 3 + 2 := by
  unfold Atomize SplitCode SplitProse splitCodeEv splitProseEv at hc
  by_cases hs : s = "code"
  · rw [if_pos hs] at hc ⊢
    obtain ⟨ev, hev, rfl⟩ := List.mem_map.mp hc
    exact splitCodeEvGo_chunk_le t content [] 0 0 (by simp) ev hev
  · rw [if_neg hs] at hc ⊢
    obtain ⟨ev, hev, rfl⟩ := List.mem_map.mp hc
    exact splitProseEvGo_chunk_le t content [] 0 (by simp) ev hev

/-- Witness for C2 (amended) at a concrete input: the one chunk of
`"ab\n"` under `"code"` with `targetSize = 1` satisfies the amended
bound. -/
theorem C2_chunk_size_bounds_witness :
    (['a', 'b', '\n'] : List Char).length ≤
      if "code" = "code" then 1 * 2 + 1 else 1 * 3 + 2 :=
  C2_chunk_size_bounds ['a', 'b', '\n'] "code" 1 ['a', 'b', '\n'] (by decide)

/-- C3: for every strategy label and positive target size, empty input
yields exactly zero chunks and nonempty input yields at least one
chunk. -/
theorem C3_empty_zero_nonempty_some (s : String) (t : Nat) (_ht : 1 ≤ t)
    (content : List Char) :
    Atomize [] s t = [] ∧ (content ≠ [] → Atomize content s t ≠ []) := by
  constructor
  · unfold Atomize SplitCode SplitProse splitCodeEv splitProseEv
    split_ifs <;> rfl
  · intro h habs
    unfold Atomize SplitCode SplitProse splitCodeEv splitProseEv at habs
    split_ifs at habs with hs
    · exact splitCodeEvGo_ne_nil t content [] 0 0 (Or.inl h)
        (List.map_eq_nil_iff.mp habs)
    · exact splitProseEvGo_ne_nil t content [] 0 (Or.inl h)
        (List.map_eq_nil_iff.mp habs)

/-- Witness for C3 at a concrete input: `targetSize = 1` is positive,
the `"code"` strategy maps the empty document to no chunks and the
one-byte document to a nonempty chunk list. -/
theorem C3_empty_zero_nonempty_some_witness :
    Atomize [] "code" 1 = [] ∧ Atomize ['a'] "code" 1 ≠ [] :=
  ⟨(C3_empty_zero_nonempty_some "code" 1 (by decide) ['a']).1,
    (C3_empty_zero_nonempty_some "code" 1 (by decide) ['a']).2 (by decide)⟩

/-- C4: every soft split of the code splitter fires at a newline byte
with the bracket-depth fold (computed independently over the document
prefix) exactly zero at that point and with the run strictly greater
than `MIN_SIZE = targetSize / 2`; the emitted chunk is the document
slice from the split start up to and including that newline; and at most
one emission happens at any trigger position, so an iteration whose soft
split fires performs no hard-limit emission. -/
theorem C4_soft_split_invariant (content : List Char) (t : Nat)
    (ev : CodeEv) (hev : ev ∈ splitCodeEv content t)
    (htag : ev.tag = CodeTag.soft) :
    content[ev.pos]? = some '\n' ∧
    depthZ content (ev.pos + 1) = 0 ∧
    t / 2 < ev.pos - ev.start ∧
    ev.chunk = (content.drop ev.start).take (ev.pos - ev.start + 1) ∧
    ev.chunk.getLast? = some '\n' ∧
    ∀ ev2 ∈ splitCodeEv content t, ev2.pos = ev.pos → ev2 = ev := by
  have hspec := splitCodeEvGo_spec content t content [] 0 0
    (List.drop_zero content).symm (by simp) (by simp) (by simp) rfl ev hev
  obtain ⟨h1, h2, h3, h4, h5⟩ := hspec.1 htag
  exact ⟨h1, h2, h3, h4, h5, fun ev2 hev2 hpos =>
    pairwise_pos_inj (splitCodeEvGo_pos_pairwise t content [] 0 0)
      ev2 hev2 ev hev hpos⟩

/-- Witness for C4 at a concrete input: scanning `"a\nb\n"` under
`targetSize = 1` emits a soft split at position `1`, which is a newline
at depth fold zero with run `1 > 0 = MIN_SIZE`. -/
theorem C4_soft_split_invariant_witness :
    (['a', '\n', 'b', '\n'] : List Char)[1]? = some '\n' ∧
    depthZ ['a', '\n', 'b', '\n'] 2 = 0 ∧
    1 / 2 < 1 - 0 := by
  have h := C4_soft_split_invariant ['a', '\n', 'b', '\n'] 1
    ⟨CodeTag.soft, 1, 0, 0, ['a', '\n']⟩ (by decide) (by decide)
  exact ⟨h.1, h.2.1, h.2.2.1⟩

/-- C5: every prose chunk that is neither the trailing remainder nor
forced by the run reaching `MAX_SIZE = targetSize * 3` ends immediately
after a detected boundary: a non-paragraph cut ends at a sentence
terminator followed by a space or newline, and a paragraph cut ends right
after a newline that is followed by another newline, consuming both. -/
theorem C5_prose_boundary_invariant (content : List Char) (t : Nat)
    (ev : ProseEv) (hev : ev ∈ splitProseEv content t)
    (_hrem : ev.tag ≠ ProseTag.rem)
    (hforced : ev.pos - ev.start < t * 3) :
    (ev.tag = ProseTag.cut →
      (∃ c, content[ev.pos]? = some c ∧ isSentencePunct c = true) ∧
      (content[ev.pos + 1]? = some ' ' ∨ content[ev.pos + 1]? = some '\n') ∧
      ev.chunk = (content.drop ev.start).take (ev.pos - ev.start + 1)) ∧
    (ev.tag = ProseTag.para →
      content[ev.pos]? = some '\n' ∧ content[ev.pos + 1]? = some '\n' ∧
      ev.chunk = (content.drop ev.start).take (ev.pos - ev.start + 2)) := by
  have hspec := splitProseEvGo_spec content t content [] 0
    (List.drop_zero content).symm (by simp) (by simp) (by simp) ev hev
  refine ⟨fun htag => ?_, hspec.2.1⟩
  obtain ⟨hchunk, hbd⟩ := hspec.1 htag
  obtain ⟨hc, hnext⟩ := hbd hforced
  exact ⟨hc, hnext, hchunk⟩

/-- Witness for C5 at a concrete input: scanning `"Hello. Hi"` under
`targetSize = 3` cuts at position `5`, a period followed by a space,
with run `5 < 9 = MAX_SIZE`; the chunk is `"Hello."`. -/
theorem C5_prose_boundary_invariant_witness :
    (∃ c, (['H', 'e', 'l', 'l', 'o', '.', ' ', 'H', 'i'] :
        List Char)[5]? = some c ∧ isSentencePunct c = true) ∧
    ((['H', 'e', 'l', 'l', 'o', '.', ' ', 'H', 'i'] :
        List Char)[6]? = some ' ' ∨
      (['H', 'e', 'l', 'l', 'o', '.', ' ', 'H', 'i'] :
        List Char)[6]? = some '\n') := by
  have h := C5_prose_boundary_invariant
    ['H', 'e', 'l', 'l', 'o', '.', ' ', 'H', 'i'] 3
    ⟨ProseTag.cut, 5, 0, ['H', 'e', 'l', 'l', 'o', '.']⟩
    (by decide) (by decide) (by decide)
  exact ⟨(h.1 rfl).1, (h.1 rfl).2.1⟩

/-- C6: the bracket-depth counter never becomes negative: the depth fold
is nonnegative after any prefix of any input, every depth value the scan
records is nonnegative, and an unbalanced lone `'}'` is processed to
completion, returning the input as one chunk. -/
theorem C6_depth_floored_at_zero (content : List Char) (t : Nat) :
    (∀ n : Nat, 0 ≤ depthZ content n) ∧
    (∀ ev ∈ splitCodeEv content t, 0 ≤ ev.depth) ∧
    (1 ≤ t → Atomize ['}'] "code" t = [['}']]) := by
  refine ⟨depthZ_nonneg content, fun ev hev => ?_, fun ht => ?_⟩
  · have hspec := splitCodeEvGo_spec content t content [] 0 0
      (List.drop_zero content).symm (by simp) (by simp) (by simp) rfl ev hev
    by_cases htag : ev.tag = CodeTag.rem
    · rw [(hspec.2.2 htag).2]
      exact depthZ_nonneg content ev.pos
    · rw [hspec.2.1 htag]
      exact depthZ_nonneg content (ev.pos + 1)
  · unfold Atomize
    rw [if_pos rfl]
    unfold SplitCode splitCodeEv
    rw [splitCodeEvGo_cons,
      if_neg (fun hcontra => absurd hcontra.1 (by decide)),
      if_neg (by simp only [List.length_nil]; omega)]
    simp [splitCodeEvGo_nil]

/-- Witness for C6 at a concrete input: the depth fold of `"}"` after
one byte is nonnegative, and with `targetSize = 5` the lone `'}'`
document comes back as a single chunk. -/
theorem C6_depth_floored_at_zero_witness :
    0 ≤ depthZ ['}'] 1 ∧ Atomize ['}'] "code" 5 = [['}']] :=
  ⟨(C6_depth_floored_at_zero ['}'] 5).1 1,
    (C6_depth_floored_at_zero ['}'] 5).2.2 (by decide)⟩

/-- C7, counterexample: the two-paragraph scenario fails as universally
stated.  For the input `"Hello. Hi\n\nB"` (two paragraphs separated by
`"\n\n"`, first paragraph `"Hello. Hi"` of length `9`) under the prose
strategy with `targetSize = 5 < 9`, the first returned chunk is
`"Hello."` -- the scan cuts at the sentence boundary inside the first
paragraph -- and does not end immediately after the two separator
newlines. -/
theorem C7_counterexample_first_paragraph :
    (Atomize ['H', 'e', 'l', 'l', 'o', '.', ' ', 'H', 'i', '\n', '\n', 'B']
        "prose" 5).head? =
      some ['H', 'e', 'l', 'l', 'o', '.'] ∧
    (Atomize ['H', 'e', 'l', 'l', 'o', '.', ' ', 'H', 'i', '\n', '\n', 'B']
        "prose" 5).head? ≠
      some (['H', 'e', 'l', 'l', 'o', '.', ' ', 'H', 'i'] ++ ['\n', '\n']) := by
  decide

/-- C7 (amended): a paragraph-boundary cut of the prose splitter emits
`run + 2` bytes, so the chunk ends immediately after both newlines and
the next chunk begins after the second newline; and the concrete
scenario holds once the first paragraph triggers no earlier cut: if it
contains no newline, no sentence terminator followed by a space, does
not end in a sentence terminator, and `targetSize <= |P1| <= 3 *
targetSize`, then the first chunk is the first paragraph plus both
separator newlines. -/
theorem C7_paragraph_cut_consumes_both_newlines (content : List Char)
    (t : Nat) (P1 P2 : List Char)
    (hnl : '\n' ∉ P1)
    (hmid : ∀ j c c2, P1[j]? = some c → P1[j + 1]? = some c2 →
      isSentencePunct c = true → c2 ≠ ' ')
    (hlast : ∀ c, P1.getLast? = some c → isSentencePunct c = false)
    (ht1 : t ≤ P1.length) (ht3 : P1.length ≤ t * 3) :
    (∀ ev ∈ splitProseEv content t, ev.tag = ProseTag.para →
      content[ev.pos]? = some '\n' ∧ content[ev.pos + 1]? = some '\n' ∧
      ev.chunk = (content.drop ev.start).take (ev.pos - ev.start + 2)) ∧
    ((splitProseEv content t).Chain'
      fun a b => b.start = a.start + a.chunk.length) ∧
    (SplitProse (P1 ++ '\n' :: '\n' :: P2) t).head? =
      some (P1 ++ ['\n', '\n']) := by
  refine ⟨fun ev hev htag => (splitProseEvGo_spec content t content [] 0
      (List.drop_zero content).symm (by simp) (by simp) (by simp)
      ev hev).2.1 htag,
    (splitProseEvGo_chain t content [] 0 (by simp)).1, ?_⟩
  unfold SplitProse splitProseEv
  rw [prose_scenario_steps t P1 P2 hnl hmid hlast ht3 P1 [] 0 (by simp)]
  have hb : proseBoundary '\n' (('\n' :: P2).head?) = true ∨
      t * 3 ≤ P1.length := Or.inl (by simp [proseBoundary])
  have hnotlt : ¬ P1.length < t := by omega
  rw [splitProseEvGo_para _ _ _ _ hnotlt hb]
  simp

/-- Witness for C7 (amended) at a concrete input: the first paragraph
`"abc"` satisfies all scenario side conditions for `targetSize = 2`, and
the first chunk of `"abc\n\nxy"` is `"abc\n\n"`. -/
theorem C7_paragraph_cut_consumes_both_newlines_witness :
    (SplitProse (['a', 'b', 'c'] ++ '\n' :: '\n' :: ['x', 'y']) 2).head? =
      some (['a', 'b', 'c'] ++ ['\n', '\n']) :=
  (C7_paragraph_cut_consumes_both_newlines [] 2 ['a', 'b', 'c'] ['x', 'y']
    (by decide)
    (fun j c c2 h1 h2 h3 => by
      have hj : j < 3 := (List.getElem?_eq_some.mp h1).1
      interval_cases j <;>
        · simp only [List.getElem?_cons_zero, List.getElem?_cons_succ,
            Option.some_inj] at h1
          subst h1
          exact absurd h3 (by decide))
    (fun c hc => by
      simp at hc
      subst hc
      decide)
    (by decide) (by decide)).2.2

/-- C8: the claimed invalid-argument rejection fails on the code.  A
non-positive `targetSize` (zero, the value a `size_t` receives) is not
rejected: the call proceeds with underflowed thresholds; under `"code"`
it even emits an empty chunk for input `"x"`, and under the prose
fallback it returns the input unchunked.  No error condition exists in
the source. -/
theorem C8_nonpositive_target_not_rejected :
    Atomize ['x'] "code" 0 = [[]] ∧
    Atomize ['x'] "anything" 0 = [['x']] := by
  decide

/-- C9: the dispatch layer runs the code splitter exactly for the literal
strategy `"code"` and the prose splitter for every other label, with no
error path. -/
theorem C9_dispatch_code_literal (content : List Char) (t : Nat) :
    Atomize content "code" t = SplitCode content t ∧
    ∀ s : String, s ≠ "code" → Atomize content s t = SplitProse content t :=
  ⟨by simp [Atomize], fun s hs => by simp [Atomize, hs]⟩

/-- Witness for C9 at a concrete input: the label `"prose"` is not
`"code"` and resolves to the prose splitter. -/
theorem C9_dispatch_code_literal_witness :
    Atomize ['a'] "prose" 2 = SplitProse ['a'] 2 :=
  (C9_dispatch_code_literal ['a'] 2).2 "prose" (by decide)

/-- C10: with a positive target size, every returned chunk is nonempty,
under either strategy. -/
theorem C10_chunks_nonempty (content : List Char) (s : String) (t : Nat)
    (ht : 1 ≤ t) (chunk : List Char) (hc : chunk ∈ Atomize content s t) :
    chunk ≠ [] := by
  unfold Atomize SplitCode SplitProse splitCodeEv splitProseEv at hc
  split_ifs at hc with hs
  · obtain ⟨ev, hev, rfl⟩ := List.mem_map.mp hc
    exact splitCodeEvGo_chunk_ne_nil t ht content [] 0 0 ev hev
  · obtain ⟨ev, hev, rfl⟩ := List.mem_map.mp hc
    exact splitProseEvGo_chunk_ne_nil t content [] 0 ev hev

/-- Witness for C10 at a concrete input: the chunk `"a"` returned for the
one-byte document under the prose fallback with `targetSize = 1` is
nonempty. -/
theorem C10_chunks_nonempty_witness : (['a'] : List Char) ≠ [] :=
  C10_chunks_nonempty ['a'] "prose" 1 (by decide) ['a'] (by decide)

end Atomizer
